import Mathlib

/-!
Verification of the second-order optimiser in `train_comp.py`.

The development shallow-embeds the optimiser core of the training script
over exact rational arithmetic: vectors are `Fin n → ℚ`, matrices are
`Matrix (Fin n) (Fin n) ℚ`.  Floating-point tolerances of the source become
exact statements (tolerance `0`), and the fallible library call
`torch.linalg.solve` is modelled as an `Option`-returning solver that fails
exactly on singular matrices, mirroring the `RuntimeError` it raises there.
-/

open Matrix

abbrev Vec (n : ℕ) := Fin n → ℚ

abbrev Mat (n : ℕ) := Matrix (Fin n) (Fin n) ℚ

/-- Squared Euclidean norm `v ⬝ᵥ v`, the exact-arithmetic stand-in for the
squared `torch.norm`. -/
def sqNorm {n : ℕ} (v : Vec n) : ℚ := v ⬝ᵥ v

/-- `x` minimises `‖A x - b‖` over all vectors: the least-squares
characterisation used for `torch.linalg.lstsq`. -/
def IsLeastSquares {n : ℕ} (A : Mat n) (b x : Vec n) : Prop :=
  ∀ y : Vec n, sqNorm (A.mulVec x - b) ≤ sqNorm (A.mulVec y - b)

/-- Model of `torch.linalg.solve hess g`: succeeds with the exact solution of
`A x = b` when `A` is invertible and reports failure (`none`, the
`RuntimeError` of the library) when `A` is singular.  The solution is computed
by the adjugate formula so that the definition stays executable. -/
def linSolve {n : ℕ} (A : Mat n) (b : Vec n) : Option (Vec n) :=
  if A.det = 0 then none else some ((A.det)⁻¹ • A.adjugate.mulVec b)

/-- `direct_hess_step` from `train_comp.py`: try `-solve(hess, g)`; on solver
failure fall back to `-lstsq(hess, g)`.  The least-squares routine is an
external library call and is passed in as a parameter `lstsq`; the theorems
assume only its documented behaviour. -/
def direct_hess_step {n : ℕ} (lstsq : Mat n → Vec n → Vec n)
    (hess_func : Unit → Mat n) (g : Vec n) : Vec n :=
  let hess := hess_func ()
  match linSolve hess g with
  | some step => -step
  | none => -(lstsq hess g)

theorem linSolve_correct {n : ℕ} {A : Mat n} {b x : Vec n}
    (h : linSolve A b = some x) : A.mulVec x = b := by
  unfold linSolve at h
  by_cases hd : A.det = 0
  · simp [hd] at h
  · simp only [hd, if_false, Option.some.injEq] at h
    subst h
    rw [Matrix.mulVec_smul, Matrix.mulVec_mulVec, Matrix.mul_adjugate,
      Matrix.smul_mulVec_assoc, Matrix.one_mulVec, smul_smul,
      inv_mul_cancel₀ hd, one_smul]

theorem linSolve_isSome_iff {n : ℕ} (A : Mat n) (b : Vec n) :
    (linSolve A b).isSome ↔ A.det ≠ 0 := by
  unfold linSolve
  by_cases hd : A.det = 0 <;> simp [hd]

theorem sqNorm_neg {n : ℕ} (v : Vec n) : sqNorm (-v) = sqNorm v := by
  simp [sqNorm, Matrix.neg_dotProduct, Matrix.dotProduct_neg]

theorem isLeastSquares_neg {n : ℕ} {A : Mat n} {b x : Vec n}
    (h : IsLeastSquares A b x) : IsLeastSquares A (-b) (-x) := by
  intro y
  have h1 : A.mulVec (-x) - (-b) = -(A.mulVec x - b) := by
    rw [Matrix.mulVec_neg]; abel
  have h2 : A.mulVec y - (-b) = -(A.mulVec (-y) - b) := by
    rw [Matrix.mulVec_neg]; abel
  calc sqNorm (A.mulVec (-x) - (-b)) = sqNorm (A.mulVec x - b) := by
        rw [h1, sqNorm_neg]
    _ ≤ sqNorm (A.mulVec (-y) - b) := h (-y)
    _ = sqNorm (A.mulVec y - (-b)) := by rw [h2, sqNorm_neg]

/-- **C5.** In direct mode: when the linear solve fails (singular Hessian,
det = 0) the step returned is exactly the least-squares fallback, which is a
least-squares solution of `hess · step = -g` (no error propagates: the
function is total); when the solve succeeds the returned step satisfies
`hess · step = -g` exactly. -/
theorem direct_hess_step_correct {n : ℕ} (lstsq : Mat n → Vec n → Vec n)
    (hess : Mat n) (g : Vec n)
    (hl : IsLeastSquares hess g (lstsq hess g)) :
    (hess.det = 0 →
      direct_hess_step lstsq (fun _ => hess) g = -(lstsq hess g) ∧
      IsLeastSquares hess (-g) (direct_hess_step lstsq (fun _ => hess) g)) ∧
    (hess.det ≠ 0 →
      hess.mulVec (direct_hess_step lstsq (fun _ => hess) g) = -g) := by
  constructor
  · intro hd
    have hnone : linSolve hess g = none := by simp [linSolve, hd]
    constructor
    · simp [direct_hess_step, hnone]
    · have : direct_hess_step lstsq (fun _ => hess) g = -(lstsq hess g) := by
        simp [direct_hess_step, hnone]
      rw [this]
      exact isLeastSquares_neg hl
  · intro hd
    have hsome : linSolve hess g = some ((hess.det)⁻¹ • hess.adjugate.mulVec g) := by
      simp [linSolve, hd]
    have hsol := linSolve_correct hsome
    simp only [direct_hess_step, hsome]
    rw [Matrix.mulVec_neg, hsol]

/-- Witness for C5 at a concrete singular instance: the 1×1 zero Hessian with
gradient `1`, and the (here constant-zero) least-squares routine. -/
theorem direct_hess_step_correct_witness :
    IsLeastSquares (0 : Mat 1) (fun _ => 1) ((fun (_ : Mat 1) (_ : Vec 1) => (0 : Vec 1)) 0 (fun _ => 1)) ∧
    ((0 : Mat 1).det = 0 →
      direct_hess_step (fun _ _ => (0 : Vec 1)) (fun _ => (0 : Mat 1)) (fun _ => 1) = -((fun (_ : Mat 1) (_ : Vec 1) => (0 : Vec 1)) 0 (fun _ => 1)) ∧
      IsLeastSquares (0 : Mat 1) (-(fun _ => 1))
        (direct_hess_step (fun _ _ => (0 : Vec 1)) (fun _ => (0 : Mat 1)) (fun _ => 1))) ∧
    ((0 : Mat 1).det ≠ 0 →
      (0 : Mat 1).mulVec (direct_hess_step (fun _ _ => (0 : Vec 1)) (fun _ => (0 : Mat 1)) (fun _ => 1)) = -(fun _ => 1)) := by
  have hl : IsLeastSquares (0 : Mat 1) (fun _ => 1) (0 : Vec 1) := by
    intro y
    simp [IsLeastSquares, sqNorm, Matrix.zero_mulVec]
  exact ⟨hl, direct_hess_step_correct (fun _ _ => (0 : Vec 1)) 0 (fun _ => 1) hl⟩

/-!
## Backtracking line search and the outer optimisation loop

`lineSearchAux` mirrors the inner `for i in range(max_iter)` loop of `train`:
the upper bound is fixed before the loop (the source computes it once, with
`t = 1`), each iteration evaluates the candidate `params + t • step`, breaks
on `loss < upper_bound`, and otherwise multiplies `t` by `beta`.  The result
records the Python state after the loop: the `break` flag, the final value of
the loop variable `i`, the multiplier `t`, and the last candidate and loss.
-/

structure LSResult (n : ℕ) where
  accepted : Bool
  i : ℕ
  t : ℚ
  params_new : Vec n
  loss : ℚ
deriving DecidableEq

def lineSearchAux {n : ℕ} (lossFn : Vec n → ℚ) (params step : Vec n)
    (ub beta : ℚ) : ℕ → ℕ → ℚ → LSResult n
  | i, 0, t => ⟨false, i, t, params, lossFn params⟩
  | i, fuel+1, t =>
    let cand := params + t • step
    let l := lossFn cand
    if l < ub then ⟨true, i, t, cand, l⟩
    else if fuel = 0 then ⟨false, i, t * beta, cand, l⟩
    else lineSearchAux lossFn params step ub beta (i+1) fuel (t * beta)

/-- The backtracking line search of `train` (lines 291-300): `t = 1; i = 0;
upper_bound = prev_loss + alpha * t * relu(curvature)` computed once, then the
inner loop. -/
def lineSearch {n : ℕ} (lossFn : Vec n → ℚ) (params step : Vec n)
    (prev_loss curvature alpha beta : ℚ) (max_iter : ℕ) : LSResult n :=
  lineSearchAux lossFn params step (prev_loss + alpha * 1 * max curvature 0)
    beta 0 max_iter 1

/-- The optimiser state of the loop: `params`, `prev_loss`, `optimal_params`,
`lowest_loss` (`train_comp.py` lines 238-242). -/
structure OptState (n : ℕ) where
  params : Vec n
  prev_loss : ℚ
  optimal_params : Vec n
  lowest_loss : ℚ
deriving DecidableEq

inductive StepResult (n : ℕ) where
  | next (s : OptState n)
  | failed (s : OptState n)
deriving DecidableEq

/-- The external oracle plus configured step strategy, as consumed by one
iteration of the loop: loss and gradient of the objective, the configured
step computation at the current parameters, and the replacement-direction
draw used by the negative-curvature branch. -/
structure Oracle (n : ℕ) where
  lossFn : Vec n → ℚ
  gradFn : Vec n → Vec n
  stepFn : Vec n → Vec n
  fallbackFn : Vec n → Vec n → Vec n

/-- End-of-iteration bookkeeping (`train_comp.py` lines 309-313):
`params = params_new`; if `loss < lowest_loss` copy `params` into
`optimal_params` and update `lowest_loss`; `prev_loss = loss`. -/
def bookkeep {n : ℕ} (s : OptState n) (params_new : Vec n) (loss : ℚ) :
    OptState n :=
  { params := params_new
    prev_loss := loss
    optimal_params := if loss < s.lowest_loss then params_new else s.optimal_params
    lowest_loss := if loss < s.lowest_loss then loss else s.lowest_loss }

/-- One iteration of the outer loop (`train_comp.py` lines 249-313):
gradient, step, `lambda_norm = -(g · step)`; if negative, apply the
replacement direction with unit multiplier and a single loss evaluation;
otherwise run the line search and — exactly as the source does — declare
failure when the final inner index `i` equals `max_iter - 1`, breaking out
before any bookkeeping. -/
def trainIter {n : ℕ} (O : Oracle n) (alpha beta : ℚ) (max_iter : ℕ)
    (s : OptState n) : StepResult n :=
  let g := O.gradFn s.params
  let step := O.stepFn s.params
  let lambda_norm := -(g ⬝ᵥ step)
  if lambda_norm < 0 then
    let step2 := O.fallbackFn s.params step
    let params_new := s.params + step2
    let loss := O.lossFn params_new
    .next (bookkeep s params_new loss)
  else
    let r := lineSearch O.lossFn s.params step s.prev_loss lambda_norm alpha
      beta max_iter
    if r.i = max_iter - 1 then .failed s
    else .next (bookkeep s r.params_new r.loss)

/-- The outer loop over the epoch budget, also accumulating the trace of
accepted iterates `(params_new, loss)` in order.  The `Bool` records whether
the loop exited through the line-search-failure `break`. -/
def runLoop {n : ℕ} (O : Oracle n) (alpha beta : ℚ) (max_iter : ℕ) :
    ℕ → OptState n → List (Vec n × ℚ) → OptState n × List (Vec n × ℚ) × Bool
  | 0, s, tr => (s, tr, false)
  | k+1, s, tr =>
    match trainIter O alpha beta max_iter s with
    | .next s2 => runLoop O alpha beta max_iter k s2 (tr ++ [(s2.params, s2.prev_loss)])
    | .failed s2 => (s2, tr, true)

/-- The accepted iterates including the initial point, whose loss initialises
`prev_loss`, `lowest_loss` (`train_comp.py` lines 238-240). -/
def acceptedPairs {n : ℕ} (O : Oracle n) (s₀ : OptState n)
    (tr : List (Vec n × ℚ)) : List (Vec n × ℚ) :=
  (s₀.params, O.lossFn s₀.params) :: tr

/-- The value the script finalises after the loop: `optimal_params` is saved
to the checkpoint and `lowest_loss` reported (`train_comp.py` lines 342,
353). -/
def trainFinal {n : ℕ} (O : Oracle n) (alpha beta : ℚ) (max_iter epochs : ℕ)
    (s₀ : OptState n) : Vec n × ℚ :=
  ((runLoop O alpha beta max_iter epochs s₀ []).1.optimal_params,
   (runLoop O alpha beta max_iter epochs s₀ []).1.lowest_loss)

/-- The state the source builds right before the loop: `prev_loss` is the
loss at the initial parameters, `optimal_params` a copy of them, and
`lowest_loss = prev_loss`. -/
def GoodInit {n : ℕ} (O : Oracle n) (s : OptState n) : Prop :=
  s.optimal_params = s.params ∧ s.lowest_loss = O.lossFn s.params ∧
    s.prev_loss = O.lossFn s.params

/-- Best-so-far invariant over a list of accepted `(iterate, loss)` pairs. -/
def BestInv {n : ℕ} (O : Oracle n) (acc : List (Vec n × ℚ))
    (s : OptState n) : Prop :=
  (∀ q ∈ acc, s.lowest_loss ≤ q.2) ∧
    (s.optimal_params, s.lowest_loss) ∈ acc ∧
    (∀ q ∈ acc, q.2 = O.lossFn q.1)

theorem lineSearchAux_loss_eq {n : ℕ} (lossFn : Vec n → ℚ) (params step : Vec n)
    (ub beta : ℚ) :
    ∀ fuel i t, (lineSearchAux lossFn params step ub beta i fuel t).loss =
      lossFn (lineSearchAux lossFn params step ub beta i fuel t).params_new := by
  intro fuel
  induction fuel with
  | zero => intro i t; rfl
  | succ fuel ih =>
    intro i t
    simp only [lineSearchAux]
    by_cases h0 : lossFn (params + t • step) < ub
    · rw [if_pos h0]
    · rw [if_neg h0]
      by_cases hf : fuel = 0
      · rw [if_pos hf]
      · rw [if_neg hf]
        exact ih (i+1) (t * beta)

theorem lineSearchAux_accepted_iff {n : ℕ} (lossFn : Vec n → ℚ)
    (params step : Vec n) (ub beta : ℚ) :
    ∀ fuel i t, (lineSearchAux lossFn params step ub beta i fuel t).accepted = true ↔
      ∃ j < fuel, lossFn (params + (t * beta ^ j) • step) < ub := by
  intro fuel
  induction fuel with
  | zero =>
    intro i t
    simp [lineSearchAux]
  | succ fuel ih =>
    intro i t
    simp only [lineSearchAux]
    by_cases h0 : lossFn (params + t • step) < ub
    · rw [if_pos h0]
      simp only [true_iff]
      exact ⟨0, Nat.succ_pos fuel, by simpa using h0⟩
    · rw [if_neg h0]
      by_cases hf : fuel = 0
      · subst hf
        rw [if_pos rfl]
        simp only [Bool.false_eq_true, false_iff]
        rintro ⟨j, hj, hacc⟩
        have hj0 : j = 0 := by omega
        subst hj0
        simp only [pow_zero, mul_one] at hacc
        exact h0 hacc
      · rw [if_neg hf, ih (i+1) (t * beta)]
        constructor
        · rintro ⟨j, hj, hacc⟩
          refine ⟨j + 1, Nat.succ_lt_succ hj, ?_⟩
          have he : t * beta ^ (j + 1) = t * beta * beta ^ j := by ring
          rw [he]
          exact hacc
        · rintro ⟨j, hj, hacc⟩
          match j with
          | 0 => exact absurd (by simpa using hacc) h0
          | j + 1 =>
            refine ⟨j, Nat.lt_of_succ_lt_succ hj, ?_⟩
            have he : t * beta * beta ^ j = t * beta ^ (j + 1) := by ring
            rw [he]
            exact hacc

theorem lineSearchAux_accepted_spec {n : ℕ} (lossFn : Vec n → ℚ)
    (params step : Vec n) (ub beta : ℚ) :
    ∀ fuel i t, (lineSearchAux lossFn params step ub beta i fuel t).accepted = true →
      ∃ j < fuel,
        (lineSearchAux lossFn params step ub beta i fuel t).i = i + j ∧
        (lineSearchAux lossFn params step ub beta i fuel t).t = t * beta ^ j ∧
        (lineSearchAux lossFn params step ub beta i fuel t).params_new =
          params + (t * beta ^ j) • step ∧
        lossFn (params + (t * beta ^ j) • step) < ub ∧
        ∀ j2 < j, ¬ lossFn (params + (t * beta ^ j2) • step) < ub := by
  intro fuel
  induction fuel with
  | zero => intro i t h; exact absurd h (by simp [lineSearchAux])
  | succ fuel ih =>
    intro i t h
    simp only [lineSearchAux] at h ⊢
    by_cases h0 : lossFn (params + t • step) < ub
    · rw [if_pos h0] at h ⊢
      refine ⟨0, Nat.succ_pos fuel, rfl, by ring, by simp, by simpa using h0, ?_⟩
      intro j2 hj2; omega
    · rw [if_neg h0] at h ⊢
      by_cases hf : fuel = 0
      · subst hf
        rw [if_pos rfl] at h
        simp at h
      · rw [if_neg hf] at h ⊢
        obtain ⟨j, hj, hi, ht, hp, hacc, hmin⟩ := ih (i+1) (t * beta) h
        have hpow : ∀ m : ℕ, t * beta * beta ^ m = t * beta ^ (m + 1) := by
          intro m; ring
        refine ⟨j + 1, Nat.succ_lt_succ hj, ?_, ?_, ?_, ?_, ?_⟩
        · rw [hi]; omega
        · rw [ht, hpow j]
        · rw [hp, hpow j]
        · rw [← hpow j]; exact hacc
        · intro j2 hj2
          match j2 with
          | 0 => simpa using h0
          | j2 + 1 =>
            rw [← hpow j2]
            exact hmin j2 (Nat.lt_of_succ_lt_succ hj2)

theorem lineSearchAux_exhaust_i {n : ℕ} (lossFn : Vec n → ℚ)
    (params step : Vec n) (ub beta : ℚ) :
    ∀ fuel i t, 1 ≤ fuel →
      (lineSearchAux lossFn params step ub beta i fuel t).accepted = false →
      (lineSearchAux lossFn params step ub beta i fuel t).i = i + (fuel - 1) := by
  intro fuel
  induction fuel with
  | zero => intro i t h; omega
  | succ fuel ih =>
    intro i t _ hacc
    simp only [lineSearchAux] at hacc ⊢
    by_cases h0 : lossFn (params + t • step) < ub
    · rw [if_pos h0] at hacc
      simp at hacc
    · rw [if_neg h0] at hacc ⊢
      by_cases hf : fuel = 0
      · subst hf
        rw [if_pos rfl]
        simp
      · rw [if_neg hf] at hacc ⊢
        have := ih (i+1) (t * beta) (by omega) hacc
        rw [this]
        omega

theorem trainIter_failed_eq {n : ℕ} {O : Oracle n} {alpha beta : ℚ}
    {max_iter : ℕ} {s s2 : OptState n}
    (h : trainIter O alpha beta max_iter s = .failed s2) : s2 = s := by
  unfold trainIter at h
  by_cases hneg : -(O.gradFn s.params ⬝ᵥ O.stepFn s.params) < 0
  · rw [if_pos hneg] at h
    cases h
  · rw [if_neg hneg] at h
    by_cases hi : (lineSearch O.lossFn s.params (O.stepFn s.params) s.prev_loss
        (-(O.gradFn s.params ⬝ᵥ O.stepFn s.params)) alpha beta max_iter).i =
        max_iter - 1
    · rw [if_pos hi] at h
      cases h
      rfl
    · rw [if_neg hi] at h
      cases h

theorem trainIter_next_eq {n : ℕ} {O : Oracle n} {alpha beta : ℚ}
    {max_iter : ℕ} {s s2 : OptState n}
    (h : trainIter O alpha beta max_iter s = .next s2) :
    ∃ pn, s2 = bookkeep s pn (O.lossFn pn) := by
  unfold trainIter at h
  by_cases hneg : -(O.gradFn s.params ⬝ᵥ O.stepFn s.params) < 0
  · rw [if_pos hneg] at h
    cases h
    exact ⟨_, rfl⟩
  · rw [if_neg hneg] at h
    by_cases hi : (lineSearch O.lossFn s.params (O.stepFn s.params) s.prev_loss
        (-(O.gradFn s.params ⬝ᵥ O.stepFn s.params)) alpha beta max_iter).i =
        max_iter - 1
    · rw [if_pos hi] at h
      cases h
    · rw [if_neg hi] at h
      cases h
      refine ⟨(lineSearch O.lossFn s.params (O.stepFn s.params) s.prev_loss
        (-(O.gradFn s.params ⬝ᵥ O.stepFn s.params)) alpha beta max_iter).params_new, ?_⟩
      have hle := lineSearchAux_loss_eq O.lossFn s.params (O.stepFn s.params)
        (s.prev_loss + alpha * 1 * max (-(O.gradFn s.params ⬝ᵥ O.stepFn s.params)) 0)
        beta max_iter 0 1
      unfold lineSearch
      rw [hle]

theorem bookkeep_lowest_le {n : ℕ} (s : OptState n) (pn : Vec n) (l : ℚ) :
    (bookkeep s pn l).lowest_loss ≤ s.lowest_loss := by
  unfold bookkeep
  dsimp only
  split
  · exact le_of_lt (by assumption)
  · exact le_refl _

theorem bestInv_bookkeep {n : ℕ} {O : Oracle n} {acc : List (Vec n × ℚ)}
    {s : OptState n} (h : BestInv O acc s) (pn : Vec n) :
    BestInv O (acc ++ [(pn, O.lossFn pn)]) (bookkeep s pn (O.lossFn pn)) := by
  obtain ⟨hle, hmem, hpair⟩ := h
  unfold bookkeep BestInv
  dsimp only
  by_cases hlt : O.lossFn pn < s.lowest_loss
  · rw [if_pos hlt, if_pos hlt]
    refine ⟨?_, ?_, ?_⟩
    · intro q hq
      rcases List.mem_append.1 hq with hq | hq
      · exact le_of_lt (lt_of_lt_of_le hlt (hle q hq))
      · simp at hq
        rw [hq]
    · exact List.mem_append.2 (Or.inr (by simp))
    · intro q hq
      rcases List.mem_append.1 hq with hq | hq
      · exact hpair q hq
      · simp at hq
        rw [hq]
  · rw [if_neg hlt, if_neg hlt]
    refine ⟨?_, ?_, ?_⟩
    · intro q hq
      rcases List.mem_append.1 hq with hq | hq
      · exact hle q hq
      · simp at hq
        rw [hq]
        exact le_of_not_lt hlt
    · exact List.mem_append.2 (Or.inl hmem)
    · intro q hq
      rcases List.mem_append.1 hq with hq | hq
      · exact hpair q hq
      · simp at hq
        rw [hq]

theorem bestInv_next {n : ℕ} {O : Oracle n} {alpha beta : ℚ} {max_iter : ℕ}
    {acc : List (Vec n × ℚ)} {s s2 : OptState n} (h : BestInv O acc s)
    (hn : trainIter O alpha beta max_iter s = .next s2) :
    BestInv O (acc ++ [(s2.params, s2.prev_loss)]) s2 := by
  obtain ⟨pn, hs2⟩ := trainIter_next_eq hn
  subst hs2
  exact bestInv_bookkeep h pn

theorem runLoop_zero {n : ℕ} (O : Oracle n) (alpha beta : ℚ) (max_iter : ℕ)
    (s : OptState n) (tr : List (Vec n × ℚ)) :
    runLoop O alpha beta max_iter 0 s tr = (s, tr, false) := rfl

theorem runLoop_succ_next {n : ℕ} {O : Oracle n} {alpha beta : ℚ}
    {max_iter : ℕ} {s s2 : OptState n} (k : ℕ) (tr : List (Vec n × ℚ))
    (hit : trainIter O alpha beta max_iter s = .next s2) :
    runLoop O alpha beta max_iter (k+1) s tr =
      runLoop O alpha beta max_iter k s2 (tr ++ [(s2.params, s2.prev_loss)]) := by
  show (match trainIter O alpha beta max_iter s with
    | .next s2 => runLoop O alpha beta max_iter k s2 (tr ++ [(s2.params, s2.prev_loss)])
    | .failed s2 => (s2, tr, true)) = _
  rw [hit]

theorem runLoop_succ_failed {n : ℕ} {O : Oracle n} {alpha beta : ℚ}
    {max_iter : ℕ} {s s2 : OptState n} (k : ℕ) (tr : List (Vec n × ℚ))
    (hit : trainIter O alpha beta max_iter s = .failed s2) :
    runLoop O alpha beta max_iter (k+1) s tr = (s2, tr, true) := by
  show (match trainIter O alpha beta max_iter s with
    | .next s2 => runLoop O alpha beta max_iter k s2 (tr ++ [(s2.params, s2.prev_loss)])
    | .failed s2 => (s2, tr, true)) = _
  rw [hit]

theorem runLoop_bestInv {n : ℕ} (O : Oracle n) (alpha beta : ℚ)
    (max_iter : ℕ) (ip : Vec n × ℚ) :
    ∀ k s tr, BestInv O (ip :: tr) s →
      BestInv O (ip :: (runLoop O alpha beta max_iter k s tr).2.1)
        (runLoop O alpha beta max_iter k s tr).1 := by
  intro k
  induction k with
  | zero => intro s tr h; exact h
  | succ k ih =>
    intro s tr h
    rcases hit : trainIter O alpha beta max_iter s with s2 | s2
    · rw [runLoop_succ_next k tr hit]
      have h2 := bestInv_next h hit
      exact ih s2 (tr ++ [(s2.params, s2.prev_loss)]) h2
    · rw [runLoop_succ_failed k tr hit]
      have hs2 : s2 = s := trainIter_failed_eq hit
      subst hs2
      exact h

theorem runLoop_lowest_mono {n : ℕ} (O : Oracle n) (alpha beta : ℚ)
    (max_iter : ℕ) :
    ∀ k s tr, (runLoop O alpha beta max_iter (k+1) s tr).1.lowest_loss ≤
      (runLoop O alpha beta max_iter k s tr).1.lowest_loss := by
  intro k
  induction k with
  | zero =>
    intro s tr
    rw [runLoop_zero]
    rcases hit : trainIter O alpha beta max_iter s with s2 | s2
    · rw [runLoop_succ_next 0 tr hit, runLoop_zero]
      obtain ⟨pn, hs2⟩ := trainIter_next_eq hit
      subst hs2
      exact bookkeep_lowest_le s pn (O.lossFn pn)
    · rw [runLoop_succ_failed 0 tr hit]
      have hs2 : s2 = s := trainIter_failed_eq hit
      subst hs2
      exact le_refl _
  | succ k ih =>
    intro s tr
    rcases hit : trainIter O alpha beta max_iter s with s2 | s2
    · rw [runLoop_succ_next (k+1) tr hit, runLoop_succ_next k tr hit]
      exact ih s2 (tr ++ [(s2.params, s2.prev_loss)])
    · rw [runLoop_succ_failed (k+1) tr hit, runLoop_succ_failed k tr hit]

theorem runLoop_failed_prefix {n : ℕ} (O : Oracle n) (alpha beta : ℚ)
    (max_iter : ℕ) :
    ∀ k s tr, (runLoop O alpha beta max_iter k s tr).2.2 = true →
      ∃ j < k, runLoop O alpha beta max_iter j s tr =
        ((runLoop O alpha beta max_iter k s tr).1,
         (runLoop O alpha beta max_iter k s tr).2.1, false) := by
  intro k
  induction k with
  | zero => intro s tr h; exact absurd h (by simp [runLoop_zero])
  | succ k ih =>
    intro s tr h
    rcases hit : trainIter O alpha beta max_iter s with s2 | s2
    · rw [runLoop_succ_next k tr hit] at h ⊢
      obtain ⟨j, hj, heq⟩ := ih s2 (tr ++ [(s2.params, s2.prev_loss)]) h
      refine ⟨j + 1, Nat.succ_lt_succ hj, ?_⟩
      rw [runLoop_succ_next j tr hit]
      exact heq
    · rw [runLoop_succ_failed k tr hit]
      have hs2 : s2 = s := trainIter_failed_eq hit
      subst hs2
      exact ⟨0, Nat.succ_pos k, by rw [runLoop_zero]⟩

/-- **C1.** After every iteration of the loop: the best-so-far loss is `≤`
every loss observed at any accepted iterate so far (the initial point and the
`params_new` accepted by each completed iteration), the pair
`(optimal_params, lowest_loss)` is itself one of those accepted pairs with
`lossFn optimal_params = lowest_loss` — so `lowest_loss` is exactly the
minimum of the accepted losses and `optimal_params` the iterate achieving
it — and the best-so-far loss is non-increasing from one iteration to the
next. -/
theorem c1_best_tracking_invariant {n : ℕ} (O : Oracle n) (alpha beta : ℚ)
    (max_iter k : ℕ) (s₀ : OptState n) (h : GoodInit O s₀) :
    (∀ q ∈ acceptedPairs O s₀ (runLoop O alpha beta max_iter k s₀ []).2.1,
        (runLoop O alpha beta max_iter k s₀ []).1.lowest_loss ≤ q.2) ∧
    ((runLoop O alpha beta max_iter k s₀ []).1.optimal_params,
      (runLoop O alpha beta max_iter k s₀ []).1.lowest_loss) ∈
        acceptedPairs O s₀ (runLoop O alpha beta max_iter k s₀ []).2.1 ∧
    O.lossFn (runLoop O alpha beta max_iter k s₀ []).1.optimal_params =
      (runLoop O alpha beta max_iter k s₀ []).1.lowest_loss ∧
    (runLoop O alpha beta max_iter (k+1) s₀ []).1.lowest_loss ≤
      (runLoop O alpha beta max_iter k s₀ []).1.lowest_loss := by
  obtain ⟨h1, h2, h3⟩ := h
  have hinit : BestInv O ((s₀.params, O.lossFn s₀.params) :: []) s₀ := by
    refine ⟨?_, ?_, ?_⟩
    · intro q hq
      simp only [List.mem_singleton] at hq
      rw [hq, h2]
    · simp only [List.mem_singleton, Prod.mk.injEq]
      exact ⟨h1, h2⟩
    · intro q hq
      simp only [List.mem_singleton] at hq
      rw [hq]
  obtain ⟨ha, hb, hc⟩ := runLoop_bestInv O alpha beta max_iter
    (s₀.params, O.lossFn s₀.params) k s₀ [] hinit
  exact ⟨ha, hb, (hc _ hb).symm, runLoop_lowest_mono O alpha beta max_iter k s₀ []⟩

def c1Oracle : Oracle 1 where
  lossFn := fun v => v 0 * v 0
  gradFn := fun v _ => 2 * v 0
  stepFn := fun v _ => -(v 0)
  fallbackFn := fun _ _ => 0

def c1State : OptState 1 :=
  ⟨fun _ => 1, 1, fun _ => 1, 1⟩

/-- Witness for C1 at a concrete oracle (quadratic loss, Newton step) after
two iterations. -/
theorem c1_best_tracking_invariant_witness :
    GoodInit c1Oracle c1State ∧
    ((∀ q ∈ acceptedPairs c1Oracle c1State
          (runLoop c1Oracle (1/2) (1/2) 5 2 c1State []).2.1,
        (runLoop c1Oracle (1/2) (1/2) 5 2 c1State []).1.lowest_loss ≤ q.2) ∧
    ((runLoop c1Oracle (1/2) (1/2) 5 2 c1State []).1.optimal_params,
      (runLoop c1Oracle (1/2) (1/2) 5 2 c1State []).1.lowest_loss) ∈
        acceptedPairs c1Oracle c1State
          (runLoop c1Oracle (1/2) (1/2) 5 2 c1State []).2.1 ∧
    c1Oracle.lossFn (runLoop c1Oracle (1/2) (1/2) 5 2 c1State []).1.optimal_params =
      (runLoop c1Oracle (1/2) (1/2) 5 2 c1State []).1.lowest_loss ∧
    (runLoop c1Oracle (1/2) (1/2) 5 (2+1) c1State []).1.lowest_loss ≤
      (runLoop c1Oracle (1/2) (1/2) 5 2 c1State []).1.lowest_loss) := by
  have hg : GoodInit c1Oracle c1State := by
    refine ⟨rfl, ?_, ?_⟩ <;> norm_num [c1Oracle, c1State]
  exact ⟨hg, c1_best_tracking_invariant c1Oracle (1/2) (1/2) 5 2 c1State hg⟩

/-- **C9.** The failure path is atomic: whenever an iteration exits through
the line-search-failure `break`, the resulting state is exactly the state the
iteration began with — current parameters, previous loss, best-so-far
parameters and best-so-far loss are all unchanged, and the rejected
candidates never enter the state. -/
theorem c9_failure_atomic {n : ℕ} (O : Oracle n) (alpha beta : ℚ)
    (max_iter : ℕ) (s s2 : OptState n)
    (h : trainIter O alpha beta max_iter s = .failed s2) :
    s2.params = s.params ∧ s2.prev_loss = s.prev_loss ∧
    s2.optimal_params = s.optimal_params ∧ s2.lowest_loss = s.lowest_loss := by
  have hs2 : s2 = s := trainIter_failed_eq h
  subst hs2
  exact ⟨rfl, rfl, rfl, rfl⟩

def c9Oracle : Oracle 1 where
  lossFn := fun _ => 1
  gradFn := fun _ => 0
  stepFn := fun _ => 0
  fallbackFn := fun _ _ => 0

def c9State : OptState 1 :=
  ⟨fun _ => 0, 1, fun _ => 0, 1⟩

/-- Witness for C9 at a concrete failing iteration. -/
theorem c9_failure_atomic_witness :
    trainIter c9Oracle (1/2) (1/2) 2 c9State = .failed c9State ∧
    (c9State.params = c9State.params ∧ c9State.prev_loss = c9State.prev_loss ∧
     c9State.optimal_params = c9State.optimal_params ∧
     c9State.lowest_loss = c9State.lowest_loss) := by
  have hf : trainIter c9Oracle (1/2) (1/2) 2 c9State = .failed c9State := by
    norm_num [trainIter, lineSearch, lineSearchAux, c9Oracle, c9State,
      Matrix.dotProduct, Fin.sum_univ_one, bookkeep]
  exact ⟨hf, c9_failure_atomic c9Oracle (1/2) (1/2) 2 c9State c9State hf⟩

/-- **C6.** Whatever way the loop terminates — budget exhausted or the
line-search-failure `break` — the finalized result is the best-so-far pair
`(optimal_params, lowest_loss)`: it is one of the accepted iterates, its loss
is minimal among them, and on a failing run it coincides with the result
already recorded after the last completed iteration (no progress is
discarded). -/
theorem c6_finalized_result_is_best {n : ℕ} (O : Oracle n) (alpha beta : ℚ)
    (max_iter k : ℕ) (s₀ : OptState n) (h : GoodInit O s₀) :
    trainFinal O alpha beta max_iter k s₀ =
      ((runLoop O alpha beta max_iter k s₀ []).1.optimal_params,
       (runLoop O alpha beta max_iter k s₀ []).1.lowest_loss) ∧
    ((runLoop O alpha beta max_iter k s₀ []).1.optimal_params,
      (runLoop O alpha beta max_iter k s₀ []).1.lowest_loss) ∈
        acceptedPairs O s₀ (runLoop O alpha beta max_iter k s₀ []).2.1 ∧
    (∀ q ∈ acceptedPairs O s₀ (runLoop O alpha beta max_iter k s₀ []).2.1,
        (runLoop O alpha beta max_iter k s₀ []).1.lowest_loss ≤ q.2) ∧
    ((runLoop O alpha beta max_iter k s₀ []).2.2 = true →
      ∃ j < k, runLoop O alpha beta max_iter j s₀ [] =
        ((runLoop O alpha beta max_iter k s₀ []).1,
         (runLoop O alpha beta max_iter k s₀ []).2.1, false)) := by
  obtain ⟨h1, h2, h3⟩ := h
  have hinit : BestInv O ((s₀.params, O.lossFn s₀.params) :: []) s₀ := by
    refine ⟨?_, ?_, ?_⟩
    · intro q hq
      simp only [List.mem_singleton] at hq
      rw [hq, h2]
    · simp only [List.mem_singleton, Prod.mk.injEq]
      exact ⟨h1, h2⟩
    · intro q hq
      simp only [List.mem_singleton] at hq
      rw [hq]
  obtain ⟨ha, hb, hc⟩ := runLoop_bestInv O alpha beta max_iter
    (s₀.params, O.lossFn s₀.params) k s₀ [] hinit
  exact ⟨rfl, hb, ha, runLoop_failed_prefix O alpha beta max_iter k s₀ []⟩

def c6Oracle : Oracle 1 where
  lossFn := fun v => v 0 * v 0
  gradFn := fun v _ => 2 * v 0
  stepFn := fun v _ => -(v 0)
  fallbackFn := fun _ _ => 0

def c6State : OptState 1 :=
  ⟨fun _ => 1, 1, fun _ => 1, 1⟩

/-- Witness for C6 at a concrete run that ends in a line-search failure at
its second iteration. -/
theorem c6_finalized_result_is_best_witness :
    GoodInit c6Oracle c6State ∧
    (trainFinal c6Oracle (1/2) (1/2) 5 2 c6State =
      ((runLoop c6Oracle (1/2) (1/2) 5 2 c6State []).1.optimal_params,
       (runLoop c6Oracle (1/2) (1/2) 5 2 c6State []).1.lowest_loss) ∧
    ((runLoop c6Oracle (1/2) (1/2) 5 2 c6State []).1.optimal_params,
      (runLoop c6Oracle (1/2) (1/2) 5 2 c6State []).1.lowest_loss) ∈
        acceptedPairs c6Oracle c6State
          (runLoop c6Oracle (1/2) (1/2) 5 2 c6State []).2.1 ∧
    (∀ q ∈ acceptedPairs c6Oracle c6State
          (runLoop c6Oracle (1/2) (1/2) 5 2 c6State []).2.1,
        (runLoop c6Oracle (1/2) (1/2) 5 2 c6State []).1.lowest_loss ≤ q.2) ∧
    ((runLoop c6Oracle (1/2) (1/2) 5 2 c6State []).2.2 = true →
      ∃ j < 2, runLoop c6Oracle (1/2) (1/2) 5 j c6State [] =
        ((runLoop c6Oracle (1/2) (1/2) 5 2 c6State []).1,
         (runLoop c6Oracle (1/2) (1/2) 5 2 c6State []).2.1, false))) := by
  have hg : GoodInit c6Oracle c6State := by
    refine ⟨rfl, ?_, ?_⟩ <;> norm_num [c6Oracle, c6State]
  exact ⟨hg, c6_finalized_result_is_best c6Oracle (1/2) (1/2) 5 2 c6State hg⟩

/-- **C2 (amended).** In the backtracking line search the acceptance bound is
computed once, before the inner loop, with the initial multiplier `t = 1`
(`upper_bound = prev_loss + alpha * 1 * max(curvature, 0)`); a candidate
`params + t·step` is accepted exactly when its loss is strictly below this
fixed bound, and otherwise `t` is multiplied by `beta` and the search
retries — so the accepted multiplier is `beta ^ i` after `i` rejected
candidates, each of which failed the same fixed bound. -/
theorem c2_line_search_fixed_bound {n : ℕ} (lossFn : Vec n → ℚ)
    (params step : Vec n) (prev_loss curvature alpha beta : ℚ)
    (max_iter : ℕ) :
    ((lineSearch lossFn params step prev_loss curvature alpha beta
        max_iter).accepted = true ↔
      ∃ j < max_iter, lossFn (params + beta ^ j • step) <
        prev_loss + alpha * 1 * max curvature 0) ∧
    ((lineSearch lossFn params step prev_loss curvature alpha beta
        max_iter).accepted = true →
      ∃ j < max_iter,
        (lineSearch lossFn params step prev_loss curvature alpha beta
          max_iter).i = j ∧
        (lineSearch lossFn params step prev_loss curvature alpha beta
          max_iter).t = beta ^ j ∧
        (lineSearch lossFn params step prev_loss curvature alpha beta
          max_iter).params_new = params + beta ^ j • step ∧
        (lineSearch lossFn params step prev_loss curvature alpha beta
          max_iter).loss = lossFn (params + beta ^ j • step) ∧
        lossFn (params + beta ^ j • step) <
          prev_loss + alpha * 1 * max curvature 0 ∧
        ∀ j2 < j, ¬ lossFn (params + beta ^ j2 • step) <
          prev_loss + alpha * 1 * max curvature 0) := by
  constructor
  · unfold lineSearch
    rw [lineSearchAux_accepted_iff]
    constructor
    · rintro ⟨j, hj, hacc⟩
      exact ⟨j, hj, by simpa using hacc⟩
    · rintro ⟨j, hj, hacc⟩
      exact ⟨j, hj, by simpa using hacc⟩
  · intro hacc
    unfold lineSearch at hacc ⊢
    obtain ⟨j, hj, hi, ht, hp, hlt, hmin⟩ :=
      lineSearchAux_accepted_spec lossFn params step
        (prev_loss + alpha * 1 * max curvature 0) beta max_iter 0 1 hacc
    refine ⟨j, hj, by simpa using hi, by simpa using ht, by simpa using hp,
      ?_, by simpa using hlt, ?_⟩
    · rw [lineSearchAux_loss_eq, hp]
      simp
    · intro j2 hj2
      have := hmin j2 hj2
      simpa using this

def c2LossFn : Vec 1 → ℚ := fun v =>
  if v 0 = -1 then 10 else if v 0 = -(1/2) then 3/4 else 0

def c2Params : Vec 1 := fun _ => 0

def c2Step : Vec 1 := fun _ => -1

/-- Counterexample to C2 as stated: with `prev_loss = 0`, `alpha = beta =
1/2`, `curvature = 2`, the code accepts the candidate at inner iteration
`i = 1` (multiplier `t = 1/2`, loss `3/4`) because the bound was computed
once with `t = 1` (`upper_bound = 1`), even though the claimed per-iteration
bound `prev_loss + alpha * t * max(curvature, 0) = 1/2` would reject it. -/
theorem c2_counterexample :
    (lineSearch c2LossFn c2Params c2Step 0 2 (1/2) (1/2) 5).accepted = true ∧
    (lineSearch c2LossFn c2Params c2Step 0 2 (1/2) (1/2) 5).i = 1 ∧
    (lineSearch c2LossFn c2Params c2Step 0 2 (1/2) (1/2) 5).t = 1/2 ∧
    ¬ ((lineSearch c2LossFn c2Params c2Step 0 2 (1/2) (1/2) 5).loss <
        0 + (1/2) * (lineSearch c2LossFn c2Params c2Step 0 2 (1/2) (1/2) 5).t *
          max 2 0) := by
  norm_num [lineSearch, lineSearchAux, c2LossFn, c2Params, c2Step, funext_iff]

def c2wLossFn : Vec 1 → ℚ := fun v => if v 0 = -1 then 10 else 0

/-- Witness for the amended C2: with the same setup but a loss that only
accepts at `t = 1/2`, the characterisation instantiates concretely. -/
theorem c2_line_search_fixed_bound_witness :
    ((lineSearch c2wLossFn c2Params c2Step 0 2 (1/2) (1/2) 5).accepted = true ↔
      ∃ j < 5, c2wLossFn (c2Params + (1/2 : ℚ) ^ j • c2Step) <
        0 + (1/2) * 1 * max 2 0) ∧
    ((lineSearch c2wLossFn c2Params c2Step 0 2 (1/2) (1/2) 5).accepted = true →
      ∃ j < 5,
        (lineSearch c2wLossFn c2Params c2Step 0 2 (1/2) (1/2) 5).i = j ∧
        (lineSearch c2wLossFn c2Params c2Step 0 2 (1/2) (1/2) 5).t = (1/2 : ℚ) ^ j ∧
        (lineSearch c2wLossFn c2Params c2Step 0 2 (1/2) (1/2) 5).params_new =
          c2Params + (1/2 : ℚ) ^ j • c2Step ∧
        (lineSearch c2wLossFn c2Params c2Step 0 2 (1/2) (1/2) 5).loss =
          c2wLossFn (c2Params + (1/2 : ℚ) ^ j • c2Step) ∧
        c2wLossFn (c2Params + (1/2 : ℚ) ^ j • c2Step) <
          0 + (1/2) * 1 * max 2 0 ∧
        ∀ j2 < j, ¬ c2wLossFn (c2Params + (1/2 : ℚ) ^ j2 • c2Step) <
          0 + (1/2) * 1 * max 2 0) :=
  c2_line_search_fixed_bound c2wLossFn c2Params c2Step 0 2 (1/2) (1/2) 5

def c3LossFn : Vec 1 → ℚ := fun v => if v 0 = -1 then 2 else 1

def c3Oracle : Oracle 1 where
  lossFn := c3LossFn
  gradFn := fun _ _ => 1
  stepFn := fun _ _ => -1
  fallbackFn := fun _ _ => 0

def c3State : OptState 1 :=
  ⟨fun _ => 0, 1, fun _ => 0, 1⟩

/-- **C3 (code bug).** With `max_iter = 2`, `alpha = beta = 1/2`,
`prev_loss = 1` and curvature `1`, the candidate at the last inner iteration
(`i = 1 = max_iter - 1`, multiplier `1/2`, loss `1`) satisfies the
sufficient-decrease bound (`1 < 3/2`), so the search accepts it — yet the
loop's failure test `i == max_iter - 1` fires anyway and the iteration exits
through the failure path with the state unchanged, discarding the accepted
candidate.  This contradicts the claim that satisfying the bound at the last
inner iteration lets the loop continue. -/
theorem c3_off_by_one_failure :
    trainIter c3Oracle (1/2) (1/2) 2 c3State = .failed c3State ∧
    (lineSearch c3Oracle.lossFn c3State.params (c3Oracle.stepFn c3State.params)
      c3State.prev_loss
      (-(c3Oracle.gradFn c3State.params ⬝ᵥ c3Oracle.stepFn c3State.params))
      (1/2) (1/2) 2).accepted = true ∧
    (lineSearch c3Oracle.lossFn c3State.params (c3Oracle.stepFn c3State.params)
      c3State.prev_loss
      (-(c3Oracle.gradFn c3State.params ⬝ᵥ c3Oracle.stepFn c3State.params))
      (1/2) (1/2) 2).i = 2 - 1 ∧
    (lineSearch c3Oracle.lossFn c3State.params (c3Oracle.stepFn c3State.params)
      c3State.prev_loss
      (-(c3Oracle.gradFn c3State.params ⬝ᵥ c3Oracle.stepFn c3State.params))
      (1/2) (1/2) 2).loss <
      c3State.prev_loss + (1/2) * 1 *
        max (-(c3Oracle.gradFn c3State.params ⬝ᵥ c3Oracle.stepFn c3State.params)) 0 := by
  refine ⟨?_, ?_, ?_, ?_⟩ <;>
    norm_num [trainIter, lineSearch, lineSearchAux, c3Oracle, c3LossFn, c3State,
      Matrix.dotProduct, Fin.sum_univ_one, bookkeep, funext_iff]

/-- **C10.** At a stationary point in direct mode (gradient exactly zero,
`lossFn params = prev_loss`, and the least-squares routine mapping a zero
right-hand side to the zero vector, as `torch.linalg.lstsq` does): the step
is the zero vector, the curvature `-(g · step)` is zero, every line-search
candidate equals the current parameters with loss exactly `prev_loss`, no
candidate meets the strict bound `loss < prev_loss`, the search exhausts,
and the iteration exits through the failure path with the state unchanged. -/
theorem c10_stationary_point_exhausts {n : ℕ} (O : Oracle n)
    (hessFn : Vec n → Mat n) (lstsq : Mat n → Vec n → Vec n)
    (alpha beta : ℚ) (max_iter : ℕ) (s : OptState n)
    (hstep : O.stepFn = fun p =>
      direct_hess_step lstsq (fun _ => hessFn p) (O.gradFn p))
    (hg : O.gradFn s.params = 0)
    (hlstsq : lstsq (hessFn s.params) 0 = 0)
    (hloss : O.lossFn s.params = s.prev_loss)
    (hmi : 1 ≤ max_iter) :
    O.stepFn s.params = 0 ∧
    -(O.gradFn s.params ⬝ᵥ O.stepFn s.params) = 0 ∧
    (∀ t : ℚ, s.params + t • O.stepFn s.params = s.params ∧
       O.lossFn (s.params + t • O.stepFn s.params) = s.prev_loss) ∧
    (lineSearch O.lossFn s.params (O.stepFn s.params) s.prev_loss
        (-(O.gradFn s.params ⬝ᵥ O.stepFn s.params)) alpha beta
        max_iter).accepted = false ∧
    trainIter O alpha beta max_iter s = .failed s := by
  have step0 : O.stepFn s.params = 0 := by
    rw [hstep]
    show direct_hess_step lstsq (fun _ => hessFn s.params) (O.gradFn s.params) = 0
    rw [hg]
    unfold direct_hess_step
    by_cases hd : (hessFn s.params).det = 0
    · simp [linSolve, hd, hlstsq]
    · simp [linSolve, hd, Matrix.mulVec_zero, smul_zero]
  have curv0 : -(O.gradFn s.params ⬝ᵥ O.stepFn s.params) = 0 := by
    rw [hg, Matrix.zero_dotProduct, neg_zero]
  have hcand : ∀ t : ℚ, s.params + t • O.stepFn s.params = s.params := by
    intro t
    rw [step0, smul_zero, add_zero]
  have hub : s.prev_loss + alpha * 1 *
      max (-(O.gradFn s.params ⬝ᵥ O.stepFn s.params)) 0 = s.prev_loss := by
    rw [curv0]
    simp
  have hacc : (lineSearch O.lossFn s.params (O.stepFn s.params) s.prev_loss
      (-(O.gradFn s.params ⬝ᵥ O.stepFn s.params)) alpha beta
      max_iter).accepted = false := by
    rw [← Bool.not_eq_true]
    unfold lineSearch
    rw [lineSearchAux_accepted_iff]
    rintro ⟨j, hj, hlt⟩
    rw [hcand (1 * beta ^ j), hloss, hub] at hlt
    exact lt_irrefl _ hlt
  have hi : (lineSearch O.lossFn s.params (O.stepFn s.params) s.prev_loss
      (-(O.gradFn s.params ⬝ᵥ O.stepFn s.params)) alpha beta
      max_iter).i = max_iter - 1 := by
    unfold lineSearch at hacc ⊢
    have he := lineSearchAux_exhaust_i O.lossFn s.params (O.stepFn s.params)
      (s.prev_loss + alpha * 1 *
        max (-(O.gradFn s.params ⬝ᵥ O.stepFn s.params)) 0) beta max_iter 0 1
      hmi hacc
    rw [he]
    omega
  have hfail : trainIter O alpha beta max_iter s = .failed s := by
    unfold trainIter
    have hnneg : ¬ -(O.gradFn s.params ⬝ᵥ O.stepFn s.params) < 0 := by
      rw [curv0]
      exact lt_irrefl 0
    rw [if_neg hnneg, if_pos hi]
  exact ⟨step0, curv0, fun t => ⟨hcand t, by rw [hcand t, hloss]⟩, hacc, hfail⟩

def c10lstsq : Mat 1 → Vec 1 → Vec 1 := fun _ _ => 0

def c10hessFn : Vec 1 → Mat 1 := fun _ => 1

def c10Oracle : Oracle 1 where
  lossFn := fun _ => 5
  gradFn := fun _ => 0
  stepFn := fun p => direct_hess_step c10lstsq (fun _ => c10hessFn p) 0
  fallbackFn := fun _ _ => 0

def c10State : OptState 1 :=
  ⟨fun _ => 0, 5, fun _ => 0, 5⟩

/-- Witness for C10 at a concrete stationary point with identity Hessian. -/
theorem c10_stationary_point_exhausts_witness :
    (c10Oracle.stepFn = fun p =>
      direct_hess_step c10lstsq (fun _ => c10hessFn p) (c10Oracle.gradFn p)) ∧
    c10Oracle.gradFn c10State.params = 0 ∧
    c10lstsq (c10hessFn c10State.params) 0 = 0 ∧
    c10Oracle.lossFn c10State.params = c10State.prev_loss ∧
    1 ≤ 3 ∧
    (c10Oracle.stepFn c10State.params = 0 ∧
    -(c10Oracle.gradFn c10State.params ⬝ᵥ c10Oracle.stepFn c10State.params) = 0 ∧
    (∀ t : ℚ, c10State.params + t • c10Oracle.stepFn c10State.params =
        c10State.params ∧
      c10Oracle.lossFn (c10State.params + t • c10Oracle.stepFn c10State.params) =
        c10State.prev_loss) ∧
    (lineSearch c10Oracle.lossFn c10State.params
        (c10Oracle.stepFn c10State.params) c10State.prev_loss
        (-(c10Oracle.gradFn c10State.params ⬝ᵥ c10Oracle.stepFn c10State.params))
        (1/2) (1/2) 3).accepted = false ∧
    trainIter c10Oracle (1/2) (1/2) 3 c10State = .failed c10State) :=
  ⟨rfl, rfl, rfl, rfl, by norm_num,
    c10_stationary_point_exhausts c10Oracle c10hessFn c10lstsq (1/2) (1/2) 3
      c10State rfl rfl rfl rfl (by norm_num)⟩

/-!
## Batched Hessian accumulation (C8)

`train_comp.py` lines 251-261: with `batch_size > 1` the Hessian passed to
the direct solver is
`sum(map(partial(base_hess_func, inputs=params), map(get_param2loss,
unfold_input.split(batch_size), unfold_target.split(batch_size))))` — the sum
of per-chunk Hessians, each evaluated at the same `params`.  The oracle's
Hessian of a sum-of-frames loss is the sum of the per-frame Hessians
(linearity of differentiation), so each chunk contributes the sum of its
frames' Hessians; `frameHess f p` below is the oracle's Hessian of frame
`f`'s loss at parameters `p`.
-/

def splitChunks {α : Type} (b : ℕ) : List α → List (List α)
  | [] => []
  | x :: xs => (x :: xs.take (b-1)) :: splitChunks b (xs.drop (b-1))
termination_by l => l.length
decreasing_by
  simp only [List.length_cons, List.length_drop]
  omega

/-- The Hessian the batched branch assembles: per-chunk Hessians (each the
sum of its frames' Hessians at the same `p`) summed over all chunks of size
`b` of the frame list. -/
def batchedHessian {D : ℕ} {α : Type} (frameHess : α → Vec D → Mat D)
    (p : Vec D) (b : ℕ) (frames : List α) : Mat D :=
  ((splitChunks b frames).map (fun c => (c.map (fun f => frameHess f p)).sum)).sum

/-- The unbatched Hessian over the full dataset at the same `p`. -/
def fullHessian {D : ℕ} {α : Type} (frameHess : α → Vec D → Mat D)
    (p : Vec D) (frames : List α) : Mat D :=
  (frames.map (fun f => frameHess f p)).sum

theorem splitChunks_flatten {α : Type} (b : ℕ) (l : List α) :
    (splitChunks b l).flatten = l := by
  induction l using splitChunks.induct b with
  | case1 => simp [splitChunks]
  | case2 x xs ih =>
    rw [splitChunks]
    simp only [List.flatten_cons, ih]
    rw [List.cons_append, List.take_append_drop]

/-- **C8.** For every positive batch size, summing the per-batch Hessians —
each batch evaluated at the same current parameter vector — yields exactly
the Hessian of the full dataset: batching is a homomorphism of the Hessian
over the partition of the data (exact equality in the rational model, i.e.
up to floating-point summation order in the source). -/
theorem c8_batched_hessian_eq_full {D : ℕ} {α : Type}
    (frameHess : α → Vec D → Mat D) (p : Vec D) (b : ℕ) (frames : List α)
    (_hb : 0 < b) :
    batchedHessian frameHess p b frames = fullHessian frameHess p frames := by
  unfold batchedHessian fullHessian
  conv_rhs => rw [← splitChunks_flatten b frames]
  rw [List.map_flatten, List.sum_flatten, List.map_map]
  rfl

def c8Frames : List ℚ := [1, 2, 3]

def c8FrameHess : ℚ → Vec 1 → Mat 1 := fun q _ => q • 1

/-- Witness for C8 with three frames split into chunks of two. -/
theorem c8_batched_hessian_eq_full_witness :
    0 < 2 ∧ batchedHessian c8FrameHess (fun _ => 0) 2 c8Frames =
      fullHessian c8FrameHess (fun _ => 0) c8Frames :=
  ⟨by norm_num,
    c8_batched_hessian_eq_full c8FrameHess (fun _ => 0) 2 c8Frames (by norm_num)⟩

/-!
## The negative-curvature replacement direction (C4)

`train_comp.py` lines 284-285:

    random_step = torch.randn_like(step) / step.numel() ** 0.5
    ortho_step = random_step - random_step @ step / step.norm()

`random_step @ step / step.norm()` is a scalar, so the subtraction broadcasts
that scalar over every coordinate of `random_step`.  To keep the model
executable over `ℚ`, the two square roots the source takes — `numel ** 0.5`
and `step.norm()` — enter as explicit values pinned by their defining
property (`x ≥ 0` and `x * x` equal to the radicand), and the concrete
instance is chosen so that both are rational.
-/

/-- `torch.randn_like(step) / step.numel() ** 0.5`, with `sqrtD` standing for
`step.numel() ** 0.5`. -/
def randomStep {n : ℕ} (sqrtD : ℚ) (draw : Vec n) : Vec n :=
  fun j => draw j / sqrtD

/-- `random_step - random_step @ step / step.norm()`, with `nrm` standing for
`step.norm()`: the scalar `(random_step · step) / nrm` is broadcast-subtracted
from every coordinate. -/
def ortho_step {n : ℕ} (nrm : ℚ) (random_step step : Vec n) : Vec n :=
  fun j => random_step j - (random_step ⬝ᵥ step) / nrm

/-- **C4 (code bug).** In dimension `D = 4` take `step = (3,4,0,0)` (so
`step.numel() ** 0.5 = 2` and `step.norm() = 5`, both exact) and a draw
`(2,0,0,0)` (so the scaled random vector is `(1,0,0,0)`).  The replacement
direction the code computes has dot product `-6/5 ≠ 0` with `step`: the
broadcast subtraction of the scalar `(r·s)/‖s‖` is not the Gram–Schmidt
projection `r - ((r·s)/(s·s))·s`, so the applied direction is not orthogonal
to the original step, contradicting the claim. -/
theorem c4_replacement_not_orthogonal :
    ((2 : ℚ) ≥ 0 ∧ (2 : ℚ) * 2 = (4 : ℕ)) ∧
    ((5 : ℚ) ≥ 0 ∧ (5 : ℚ) * 5 =
      (![3, 4, 0, 0] : Vec 4) ⬝ᵥ (![3, 4, 0, 0] : Vec 4)) ∧
    randomStep 2 (![2, 0, 0, 0] : Vec 4) = ![1, 0, 0, 0] ∧
    (ortho_step 5 (randomStep 2 (![2, 0, 0, 0] : Vec 4)) ![3, 4, 0, 0]) ⬝ᵥ
      (![3, 4, 0, 0] : Vec 4) = -(6/5) ∧
    (-(6/5) : ℚ) ≠ 0 := by
  refine ⟨⟨by norm_num, ?_⟩, ⟨by norm_num, ?_⟩, ?_, ?_, by norm_num⟩
  · rw [show ((4:ℕ) : ℚ) = 4 by norm_num]
    norm_num
  · rw [Matrix.dotProduct]
    rw [Fin.sum_univ_four]
    norm_num
  · funext j
    fin_cases j <;> norm_num [randomStep]
  · rw [Matrix.dotProduct, Fin.sum_univ_four]
    have hd : (randomStep 2 (![2, 0, 0, 0] : Vec 4)) ⬝ᵥ
        (![3, 4, 0, 0] : Vec 4) = 3 := by
      rw [Matrix.dotProduct, Fin.sum_univ_four]
      norm_num [randomStep]
    simp only [ortho_step, hd]
    norm_num [randomStep]

/-!
## Conjugate gradient (C7)

`conjugate_gradient(p, func, g)` of `train_comp.py` lines 39-51.  The
Hessian-vector product `torch.autograd.functional.vhp(func, p, p_t)` at the
fixed evaluation point is modelled by multiplication with the (symmetric)
Hessian matrix `H` at that point.  The source loop `while norm(r) > eps`
(with `eps` the working precision's machine epsilon) becomes the exact
condition `r ≠ 0`; the unbounded `while` is run with fuel `n`, which the
termination theorem below shows is enough for the residual to vanish exactly
when `H` is symmetric positive-definite, so the fuelled loop computes the
`while` loop's limit.
-/

structure CGState (n : ℕ) where
  r : Vec n
  p : Vec n
  v : Vec n

/-- One iteration of the `while` body: `Ap = hvp(p)`;
`alpha = (r·r)/(p·Ap)`; `v += alpha·p`; `r_new = r + alpha·Ap`;
`beta = (r_new·r_new)/(r·r)`; `p := -r_new + beta·p`; `r := r_new`. -/
def cgStep {n : ℕ} (H : Mat n) (s : CGState n) : CGState n :=
  let Ap := H.mulVec s.p
  let alpha := (s.r ⬝ᵥ s.r) / (s.p ⬝ᵥ Ap)
  let v2 := s.v + alpha • s.p
  let rn := s.r + alpha • Ap
  let beta := (rn ⬝ᵥ rn) / (s.r ⬝ᵥ s.r)
  ⟨rn, -rn + beta • s.p, v2⟩

/-- The initial state `r = -g`, `p = g`, `v = 0`. -/
def cgInit {n : ℕ} (g : Vec n) : CGState n := ⟨-g, g, 0⟩

/-- The `while norm(r) > eps` loop with fuel, stopping exactly when the
residual vanishes. -/
def cgLoop {n : ℕ} (H : Mat n) : ℕ → CGState n → CGState n
  | 0, s => s
  | k+1, s => if s.r = 0 then s else cgLoop H k (cgStep H s)

/-- `conjugate_gradient` returns `-v` once the loop has stopped. -/
def conjugate_gradient {n : ℕ} (H : Mat n) (g : Vec n) : Vec n :=
  -(cgLoop H n (cgInit g)).v

/-- The state after `k` unconditional iterations of the loop body. -/
def cgIter {n : ℕ} (H : Mat n) (g : Vec n) (k : ℕ) : CGState n :=
  (cgStep H)^[k] (cgInit g)

/-- The CG step length `alpha_t = (r·r)/(p·Ap)` at iteration `k`. -/
def cgAlpha {n : ℕ} (H : Mat n) (g : Vec n) (k : ℕ) : ℚ :=
  ((cgIter H g k).r ⬝ᵥ (cgIter H g k).r) /
    ((cgIter H g k).p ⬝ᵥ H.mulVec (cgIter H g k).p)

/-- The CG coefficient `beta_t = (r_new·r_new)/(r·r)` at iteration `k`. -/
def cgBeta {n : ℕ} (H : Mat n) (g : Vec n) (k : ℕ) : ℚ :=
  ((cgIter H g (k+1)).r ⬝ᵥ (cgIter H g (k+1)).r) /
    ((cgIter H g k).r ⬝ᵥ (cgIter H g k).r)

theorem cgIter_zero {n : ℕ} (H : Mat n) (g : Vec n) :
    cgIter H g 0 = cgInit g := rfl

theorem cgIter_succ {n : ℕ} (H : Mat n) (g : Vec n) (k : ℕ) :
    cgIter H g (k+1) = cgStep H (cgIter H g k) :=
  Function.iterate_succ_apply' (cgStep H) k (cgInit g)

theorem cgIter_r_succ {n : ℕ} (H : Mat n) (g : Vec n) (k : ℕ) :
    (cgIter H g (k+1)).r =
      (cgIter H g k).r + cgAlpha H g k • H.mulVec (cgIter H g k).p := by
  rw [cgIter_succ]
  rfl

theorem cgIter_p_succ {n : ℕ} (H : Mat n) (g : Vec n) (k : ℕ) :
    (cgIter H g (k+1)).p =
      -((cgIter H g (k+1)).r) + cgBeta H g k • (cgIter H g k).p := by
  have hb : cgBeta H g k =
      ((cgStep H (cgIter H g k)).r ⬝ᵥ (cgStep H (cgIter H g k)).r) /
        ((cgIter H g k).r ⬝ᵥ (cgIter H g k).r) := by
    unfold cgBeta
    rw [cgIter_succ]
  rw [cgIter_succ, hb]
  rfl

theorem cgIter_v_succ {n : ℕ} (H : Mat n) (g : Vec n) (k : ℕ) :
    (cgIter H g (k+1)).v =
      (cgIter H g k).v + cgAlpha H g k • (cgIter H g k).p := by
  rw [cgIter_succ]
  rfl

/-- Loop invariant: the residual is `H·v - g` throughout (with the source's
sign convention `r_0 = -g`). -/
theorem cgIter_resid {n : ℕ} (H : Mat n) (g : Vec n) :
    ∀ k, (cgIter H g k).r = H.mulVec (cgIter H g k).v - g := by
  intro k
  induction k with
  | zero =>
    show -g = H.mulVec 0 - g
    rw [Matrix.mulVec_zero, zero_sub]
  | succ k ih =>
    rw [cgIter_r_succ, cgIter_v_succ, Matrix.mulVec_add, Matrix.mulVec_smul, ih]
    abel

theorem dot_self_nonneg {n : ℕ} (v : Vec n) : 0 ≤ v ⬝ᵥ v :=
  Finset.sum_nonneg fun i _ => mul_self_nonneg (v i)

theorem dot_self_pos {n : ℕ} {v : Vec n} (h : v ≠ 0) : 0 < v ⬝ᵥ v := by
  rcases lt_or_eq_of_le (dot_self_nonneg v) with hlt | heq
  · exact hlt
  · exact absurd (Matrix.dotProduct_self_eq_zero.mp heq.symm) h

theorem dot_mulVec_symm {n : ℕ} {H : Mat n} (hsym : Hᵀ = H) (x y : Vec n) :
    x ⬝ᵥ H.mulVec y = y ⬝ᵥ H.mulVec x := by
  rw [Matrix.dotProduct_mulVec]
  conv_lhs => rw [← hsym]
  rw [Matrix.vecMul_transpose, Matrix.dotProduct_comm]

/-- The residual written in terms of the two latest search directions:
`r_0 = -p_0` and `r_{k+1} = -p_{k+1} + beta_k • p_k`. -/
theorem cgIter_r_eq_p {n : ℕ} (H : Mat n) (g : Vec n) :
    ∀ k, (cgIter H g k).r = -((cgIter H g k).p) +
      (if k = 0 then 0 else cgBeta H g (k-1) • (cgIter H g (k-1)).p) := by
  intro k
  match k with
  | 0 =>
    show (cgInit g).r = -((cgInit g).p) + 0
    show -g = -g + 0
    rw [add_zero]
  | k + 1 =>
    simp only [Nat.succ_ne_zero, if_false, Nat.add_sub_cancel]
    rw [cgIter_p_succ]
    abel

/-- Dot products against `H·p_k`, rewritten through the residual update
`r_{k+1} = r_k + alpha_k • H·p_k` when `alpha_k ≠ 0`. -/
theorem dot_Hp_eq {n : ℕ} (H : Mat n) (g : Vec n) (k : ℕ)
    (ha : cgAlpha H g k ≠ 0) (x : Vec n) :
    x ⬝ᵥ H.mulVec (cgIter H g k).p =
      (cgAlpha H g k)⁻¹ *
        (x ⬝ᵥ (cgIter H g (k+1)).r - x ⬝ᵥ (cgIter H g k).r) := by
  rw [cgIter_r_succ, Matrix.dotProduct_add, Matrix.dotProduct_smul]
  field_simp

/-- The classical CG invariants, in the source's sign convention: residuals
are mutually orthogonal, search directions are `H`-conjugate,
`r_j · p_j = -(r_j · r_j)`, and each residual is orthogonal to all earlier
directions. -/
def CGInv {n : ℕ} (H : Mat n) (g : Vec n) (m : ℕ) : Prop :=
  (∀ i j, i < j → j ≤ m → (cgIter H g i).r ⬝ᵥ (cgIter H g j).r = 0) ∧
  (∀ i j, i < j → j ≤ m →
    (cgIter H g i).p ⬝ᵥ H.mulVec (cgIter H g j).p = 0) ∧
  (∀ j, j ≤ m → (cgIter H g j).r ⬝ᵥ (cgIter H g j).p =
    -((cgIter H g j).r ⬝ᵥ (cgIter H g j).r)) ∧
  (∀ i j, i < j → j ≤ m → (cgIter H g j).r ⬝ᵥ (cgIter H g i).p = 0)

theorem cgInv_of_nonzero {n : ℕ} {H : Mat n} (g : Vec n)
    (hsym : Hᵀ = H) (hpd : ∀ x : Vec n, x ≠ 0 → 0 < x ⬝ᵥ H.mulVec x) :
    ∀ m, (∀ j, j < m → (cgIter H g j).r ≠ 0) → CGInv H g m := by
  intro m
  induction m with
  | zero =>
    intro _
    refine ⟨?_, ?_, ?_, ?_⟩
    · intro i j hij hj; omega
    · intro i j hij hj; omega
    · intro j hj
      have hj0 : j = 0 := by omega
      subst hj0
      show (cgInit g).r ⬝ᵥ (cgInit g).p = -((cgInit g).r ⬝ᵥ (cgInit g).r)
      show (-g) ⬝ᵥ g = -((-g) ⬝ᵥ (-g))
      rw [Matrix.neg_dotProduct, Matrix.neg_dotProduct, Matrix.dotProduct_neg,
        neg_neg]
    · intro i j hij hj; omega
  | succ m ih =>
    intro hnz
    obtain ⟨O1, O2, O3, O4⟩ := ih (fun j hj => hnz j (Nat.lt_succ_of_lt hj))
    have hrz : ∀ k, k ≤ m → (cgIter H g k).r ≠ 0 :=
      fun k hk => hnz k (Nat.lt_succ_of_le hk)
    have hrr : ∀ k, k ≤ m → (cgIter H g k).r ⬝ᵥ (cgIter H g k).r ≠ 0 :=
      fun k hk => ne_of_gt (dot_self_pos (hrz k hk))
    have hpz : ∀ k, k ≤ m → (cgIter H g k).p ≠ 0 := by
      intro k hk hp0
      have h3 := O3 k hk
      rw [hp0, Matrix.dotProduct_zero] at h3
      exact hrr k hk (neg_eq_zero.mp h3.symm)
    have hpApne : ∀ k, k ≤ m →
        (cgIter H g k).p ⬝ᵥ H.mulVec (cgIter H g k).p ≠ 0 :=
      fun k hk => ne_of_gt (hpd _ (hpz k hk))
    have halpha : ∀ k, k ≤ m → cgAlpha H g k ≠ 0 := by
      intro k hk
      unfold cgAlpha
      exact div_ne_zero (hrr k hk) (hpApne k hk)
    have halpha_mul : ∀ k, k ≤ m →
        cgAlpha H g k * ((cgIter H g k).p ⬝ᵥ H.mulVec (cgIter H g k).p) =
          (cgIter H g k).r ⬝ᵥ (cgIter H g k).r := by
      intro k hk
      unfold cgAlpha
      exact div_mul_cancel₀ _ (hpApne k hk)
    have hrHp : ∀ k, k ≤ m → (cgIter H g k).r ⬝ᵥ H.mulVec (cgIter H g m).p =
        (if k = m
          then -((cgIter H g m).p ⬝ᵥ H.mulVec (cgIter H g m).p)
          else 0) := by
      intro k hk
      rw [cgIter_r_eq_p H g k, Matrix.add_dotProduct, Matrix.neg_dotProduct]
      by_cases hk0 : k = 0
      · subst hk0
        rw [if_pos rfl, Matrix.zero_dotProduct, add_zero]
        by_cases hm0 : (0 : ℕ) = m
        · rw [if_pos hm0, ← hm0]
        · rw [if_neg hm0, O2 0 m (by omega) (le_refl m), neg_zero]
      · rw [if_neg hk0, Matrix.smul_dotProduct, smul_eq_mul,
          O2 (k-1) m (by omega) (le_refl m), mul_zero, add_zero]
        by_cases hkm : k = m
        · rw [if_pos hkm, hkm]
        · rw [if_neg hkm, O2 k m (by omega) (le_refl m), neg_zero]
    have O1' : ∀ i, i ≤ m →
        (cgIter H g i).r ⬝ᵥ (cgIter H g (m+1)).r = 0 := by
      intro i hi
      rw [cgIter_r_succ, Matrix.dotProduct_add, Matrix.dotProduct_smul,
        smul_eq_mul]
      by_cases him : i = m
      · subst him
        rw [hrHp i (le_refl i), if_pos rfl, mul_neg,
          halpha_mul i (le_refl i)]
        ring
      · rw [O1 i m (by omega) (le_refl m), hrHp i hi, if_neg him, mul_zero,
          add_zero]
    have O4' : ∀ i, i ≤ m →
        (cgIter H g (m+1)).r ⬝ᵥ (cgIter H g i).p = 0 := by
      intro i hi
      rw [cgIter_r_succ, Matrix.add_dotProduct, Matrix.smul_dotProduct,
        smul_eq_mul,
        Matrix.dotProduct_comm (H.mulVec (cgIter H g m).p) (cgIter H g i).p]
      by_cases him : i = m
      · subst him
        rw [O3 i (le_refl i), halpha_mul i (le_refl i)]
        ring
      · rw [O4 i m (by omega) (le_refl m), O2 i m (by omega) (le_refl m),
          mul_zero, add_zero]
    have O3' : (cgIter H g (m+1)).r ⬝ᵥ (cgIter H g (m+1)).p =
        -((cgIter H g (m+1)).r ⬝ᵥ (cgIter H g (m+1)).r) := by
      rw [cgIter_p_succ, Matrix.dotProduct_add, Matrix.dotProduct_neg,
        Matrix.dotProduct_smul, smul_eq_mul, O4' m (le_refl m), mul_zero,
        add_zero]
    have O2' : ∀ i, i ≤ m →
        (cgIter H g i).p ⬝ᵥ H.mulVec (cgIter H g (m+1)).p = 0 := by
      intro i hi
      rw [cgIter_p_succ, Matrix.mulVec_add, Matrix.mulVec_neg,
        Matrix.mulVec_smul, Matrix.dotProduct_add, Matrix.dotProduct_neg,
        Matrix.dotProduct_smul, smul_eq_mul,
        dot_mulVec_symm hsym (cgIter H g i).p (cgIter H g (m+1)).r,
        dot_Hp_eq H g i (halpha i hi)]
      by_cases him : i = m
      · subst him
        have h2 : (cgIter H g (i+1)).r ⬝ᵥ (cgIter H g i).r = 0 := by
          rw [Matrix.dotProduct_comm]
          exact O1' i (le_refl i)
        rw [h2, sub_zero]
        have e1 : (cgAlpha H g i)⁻¹ =
            ((cgIter H g i).p ⬝ᵥ H.mulVec (cgIter H g i).p) /
              ((cgIter H g i).r ⬝ᵥ (cgIter H g i).r) := by
          unfold cgAlpha
          rw [inv_div]
        rw [e1]
        unfold cgBeta
        ring
      · have h1 : (cgIter H g (i+1)).r ⬝ᵥ (cgIter H g (i+1)).r =
            (cgIter H g (i+1)).r ⬝ᵥ (cgIter H g (i+1)).r := rfl
        have h2 : (cgIter H g (m+1)).r ⬝ᵥ (cgIter H g (i+1)).r = 0 := by
          rw [Matrix.dotProduct_comm]
          exact O1' (i+1) (by omega)
        have h3 : (cgIter H g (m+1)).r ⬝ᵥ (cgIter H g i).r = 0 := by
          rw [Matrix.dotProduct_comm]
          exact O1' i (by omega)
        rw [h2, h3, O2 i m (by omega) (le_refl m), sub_zero, mul_zero,
          mul_zero, neg_zero, zero_add]
    refine ⟨?_, ?_, ?_, ?_⟩
    · intro i j hij hj
      by_cases hjm : j = m + 1
      · subst hjm
        exact O1' i (by omega)
      · exact O1 i j hij (by omega)
    · intro i j hij hj
      by_cases hjm : j = m + 1
      · subst hjm
        exact O2' i (by omega)
      · exact O2 i j hij (by omega)
    · intro j hj
      by_cases hjm : j = m + 1
      · subst hjm
        exact O3'
      · exact O3 j (by omega)
    · intro i j hij hj
      by_cases hjm : j = m + 1
      · subst hjm
        exact O4' i (by omega)
      · exact O4 i j hij (by omega)

theorem sum_dotProduct_distrib {ι : Type} [Fintype ι] {n : ℕ}
    (w : ι → Vec n) (y : Vec n) :
    (∑ i, w i) ⬝ᵥ y = ∑ i, w i ⬝ᵥ y := by
  simp only [Matrix.dotProduct, Finset.sum_apply, Finset.sum_mul]
  exact Finset.sum_comm

/-- With exact arithmetic, a symmetric positive-definite `H` forces the CG
residual to vanish within `n` iterations: otherwise the `n+1` residuals
`r_0,…,r_n` would be nonzero and pairwise orthogonal, hence linearly
independent in an `n`-dimensional space. -/
theorem cg_exists_residual_zero {n : ℕ} {H : Mat n} (g : Vec n)
    (hsym : Hᵀ = H) (hpd : ∀ x : Vec n, x ≠ 0 → 0 < x ⬝ᵥ H.mulVec x) :
    ∃ k, k ≤ n ∧ (cgIter H g k).r = 0 := by
  by_contra hcon
  push_neg at hcon
  obtain ⟨O1, _, _, _⟩ := cgInv_of_nonzero g hsym hpd n
    (fun j hj => hcon j (by omega))
  have hli : LinearIndependent ℚ
      (fun k : Fin (n+1) => (cgIter H g (k : ℕ)).r) := by
    rw [Fintype.linearIndependent_iff]
    intro c hc j
    have hdot := congrArg (fun v => v ⬝ᵥ (cgIter H g (j : ℕ)).r) hc
    simp only at hdot
    rw [sum_dotProduct_distrib, Matrix.zero_dotProduct] at hdot
    rw [Finset.sum_eq_single j] at hdot
    · rw [Matrix.smul_dotProduct, smul_eq_mul] at hdot
      have hrrj : (cgIter H g (j : ℕ)).r ⬝ᵥ (cgIter H g (j : ℕ)).r ≠ 0 :=
        ne_of_gt (dot_self_pos (hcon (j : ℕ) (by omega)))
      exact (mul_eq_zero.mp hdot).resolve_right hrrj
    · intro b _ hbj
      rw [Matrix.smul_dotProduct, smul_eq_mul]
      rcases Nat.lt_or_ge (b : ℕ) (j : ℕ) with hbj2 | hbj2
      · rw [O1 (b : ℕ) (j : ℕ) hbj2 (by omega), mul_zero]
      · have hjb : (j : ℕ) < (b : ℕ) := by
          have hne : (b : ℕ) ≠ (j : ℕ) := fun he => hbj (Fin.ext he)
          omega
        rw [Matrix.dotProduct_comm, O1 (j : ℕ) (b : ℕ) hjb (by omega),
          mul_zero]
    · intro hj
      exact absurd (Finset.mem_univ j) hj
  have hcard := hli.fintype_card_le_finrank
  rw [Module.finrank_fin_fun, Fintype.card_fin] at hcard
  omega

/-- Running the fuelled loop when the first zero residual occurs at step
`K ≤ fuel` stops exactly at step `K` — the fuelled loop computes the limit of
the source's unbounded `while` loop. -/
theorem cgLoop_eq_of_zero {n : ℕ} (H : Mat n) :
    ∀ K fuel (s : CGState n), K ≤ fuel →
      (∀ j, j < K → ((cgStep H)^[j] s).r ≠ 0) →
      ((cgStep H)^[K] s).r = 0 →
      cgLoop H fuel s = (cgStep H)^[K] s := by
  intro K
  induction K with
  | zero =>
    intro fuel s _ _ hz
    rw [Function.iterate_zero_apply] at hz ⊢
    match fuel with
    | 0 => rfl
    | f+1 =>
      show (if s.r = 0 then s else cgLoop H f (cgStep H s)) = s
      rw [if_pos hz]
  | succ K ihK =>
    intro fuel s hKf hnz hz
    cases fuel with
    | zero => omega
    | succ f =>
      have hs0 : s.r ≠ 0 := by
        have h0 := hnz 0 (Nat.succ_pos K)
        rwa [Function.iterate_zero_apply] at h0
      show (if s.r = 0 then s else cgLoop H f (cgStep H s)) = _
      rw [if_neg hs0]
      have h1 : ∀ j, j < K → ((cgStep H)^[j] (cgStep H s)).r ≠ 0 := by
        intro j hj
        rw [← Function.iterate_succ_apply]
        exact hnz (j+1) (Nat.succ_lt_succ hj)
      have h2 : ((cgStep H)^[K] (cgStep H s)).r = 0 := by
        rw [← Function.iterate_succ_apply]
        exact hz
      rw [ihK f (cgStep H s) (Nat.succ_le_succ_iff.mp hKf) h1 h2,
        ← Function.iterate_succ_apply]

/-- **C7.** For every symmetric positive-definite `H` and every `g`, the
conjugate-gradient step (the source recurrences from `r = -g`, `p = g`,
`v = 0`, stopping when the residual vanishes — the exact-arithmetic reading
of `norm(r) > eps` — and returning `-v`) satisfies `H · step = -g` and is
EQUAL to the direct-mode step `-solve(H, g)`, i.e. the two strategies agree
exactly (tolerance `0`) in the rational model, for any least-squares
fallback `lstsq` (which the direct path does not take since `H` is
invertible). -/
theorem c7_cg_eq_direct_step {n : ℕ} (H : Mat n) (g : Vec n)
    (lstsq : Mat n → Vec n → Vec n)
    (hsym : Hᵀ = H) (hpd : ∀ x : Vec n, x ≠ 0 → 0 < x ⬝ᵥ H.mulVec x) :
    H.mulVec (conjugate_gradient H g) = -g ∧
    conjugate_gradient H g = direct_hess_step lstsq (fun _ => H) g := by
  have hdet : H.det ≠ 0 := by
    intro hd
    obtain ⟨v, hv0, hv⟩ := Matrix.exists_mulVec_eq_zero_iff.mpr hd
    have hp := hpd v hv0
    rw [hv, Matrix.dotProduct_zero] at hp
    exact lt_irrefl 0 hp
  obtain ⟨k, hk, hzk⟩ := cg_exists_residual_zero g hsym hpd
  have hex : ∃ m, (cgIter H g m).r = 0 := ⟨k, hzk⟩
  have hzK : (cgIter H g (Nat.find hex)).r = 0 := Nat.find_spec hex
  have hKmin : ∀ j, j < Nat.find hex → (cgIter H g j).r ≠ 0 :=
    fun j hj => Nat.find_min hex hj
  have hKle : Nat.find hex ≤ n := le_trans (Nat.find_min' hex hzk) hk
  have hloop : cgLoop H n (cgInit g) = cgIter H g (Nat.find hex) :=
    cgLoop_eq_of_zero H (Nat.find hex) n (cgInit g) hKle hKmin hzK
  have hres := cgIter_resid H g (Nat.find hex)
  rw [hzK] at hres
  have hHv : H.mulVec (cgIter H g (Nat.find hex)).v = g :=
    sub_eq_zero.mp hres.symm
  have hcg : conjugate_gradient H g = -((cgIter H g (Nat.find hex)).v) := by
    unfold conjugate_gradient
    rw [hloop]
  have hsome : linSolve H g = some ((H.det)⁻¹ • H.adjugate.mulVec g) := by
    simp [linSolve, hdet]
  have hd2 : direct_hess_step lstsq (fun _ => H) g =
      -((H.det)⁻¹ • H.adjugate.mulVec g) := by
    simp [direct_hess_step, hsome]
  have hsol : H.mulVec ((H.det)⁻¹ • H.adjugate.mulVec g) = g :=
    linSolve_correct hsome
  have hinj : ∀ x y : Vec n, H.mulVec x = H.mulVec y → x = y := by
    intro x y hxy
    have h1 := congrArg (fun w => H.adjugate.mulVec w) hxy
    simp only [Matrix.mulVec_mulVec] at h1
    rw [Matrix.adjugate_mul, Matrix.smul_mulVec_assoc, Matrix.smul_mulVec_assoc,
      Matrix.one_mulVec, Matrix.one_mulVec] at h1
    exact smul_right_injective (Vec n) hdet h1
  have hveq : (cgIter H g (Nat.find hex)).v = (H.det)⁻¹ • H.adjugate.mulVec g :=
    hinj _ _ (by rw [hHv, hsol])
  constructor
  · rw [hcg, Matrix.mulVec_neg, hHv]
  · rw [hcg, hd2, hveq]

/-- Witness for C7: the 1×1 identity Hessian and gradient `3`. -/
theorem c7_cg_eq_direct_step_witness :
    ((1 : Mat 1)ᵀ = 1) ∧
    (∀ x : Vec 1, x ≠ 0 → 0 < x ⬝ᵥ (1 : Mat 1).mulVec x) ∧
    ((1 : Mat 1).mulVec (conjugate_gradient 1 (fun _ => 3)) = -(fun _ => 3) ∧
     conjugate_gradient 1 (fun _ => 3) =
       direct_hess_step (fun _ _ => 0) (fun _ => (1 : Mat 1)) (fun _ => 3)) :=
  ⟨Matrix.transpose_one,
   fun x hx => by rw [Matrix.one_mulVec]; exact dot_self_pos hx,
   c7_cg_eq_direct_step 1 (fun _ => 3) (fun _ _ => 0) Matrix.transpose_one
     (fun x hx => by rw [Matrix.one_mulVec]; exact dot_self_pos hx)⟩
